/-
Verification of the Upload Queue Controller (`FileUploader` component,
`src/components/FileUploader.tsx`) of the sichelgaita.ai repository.

The component keeps a client-side queue of `UploadProgress` records, one per
submitted file, and drives each valid file through the lifecycle
`pending → uploading → processing → completed` (or `error`).  We give a
shallow embedding of its data model and of the three operations the claims
are about:

  * `validateFile`  — extension allow-list and size ceiling;
  * `handleFiles`   — the `submit` operation: synchronous queue append
    followed by the serial upload loop (every `setUploadQueue` functional
    update is modelled as an `Event`, so the evolution of the queue is the
    fold of the emitted events over the appended queue);
  * `removeFromQueue` — the `dismiss` operation.

Environment inputs (the outcome of each network call) are parameters.  The
component reads `uploadQueue.length` from the render-scope closure when it
computes `queueIndex`; we model one invocation from a quiescent state, where
that closure value equals the queue `prev` passed to `handleFiles`.
-/
import Mathlib

namespace SichelgaitaUpload

/-- A candidate file: the two attributes `validateFile` and the queue read
(`file.name`, `file.size`). -/
structure FileMeta where
  name : String
  size : Nat
deriving DecidableEq, Repr

/-- The lifecycle states of the `UploadProgress.status` union type. -/
inductive Status where
  | pending
  | uploading
  | processing
  | completed
  | error
deriving DecidableEq, Repr

/-- One Transfer Item of the queue (`UploadProgress` in `types/index.ts`):
file handle, progress 0–100, lifecycle state, optional error message. -/
structure UploadProgress where
  file : FileMeta
  progress : Nat
  status : Status
  error : Option String
deriving DecidableEq, Repr

/-- The `ALLOWED_EXTENSIONS` allow-list from the source. -/
def ALLOWED_EXTENSIONS : List String :=
  [".csv", ".xlsx", ".xls", ".pdf", ".png", ".jpg", ".jpeg"]

/-- The `MAX_FILE_SIZE` ceiling from the source: `50 * 1024 * 1024`. -/
def MAX_FILE_SIZE : Nat := 50 * 1024 * 1024

/-- Modelled from the spec: `formatFileSize` is imported from the frontend
utility library `@/lib/utils`, which is not part of the provided sources;
only its use to render the configured ceiling inside the size-error message
is visible here.  The claims do not constrain the rendered text, so we model
it as a plain rendering of the byte count. -/
def formatFileSize (n : Nat) : String := toString n ++ " bytes"

/-- Splitting a character list on a separator, the semantics of JavaScript
`String.prototype.split` with a one-character separator: `[] ↦ [[]]`, and
every occurrence of the separator starts a new (possibly empty) segment. -/
def splitOnChar (sep : Char) : List Char → List (List Char)
  | [] => [[]]
  | c :: rest =>
    if c = sep then [] :: splitOnChar sep rest
    else
      match splitOnChar sep rest with
      | [] => [[c]]
      | seg :: segs => (c :: seg) :: segs

/-- The extension the component derives from the file name, the expression
interpolated in `validateFile` — `` `.${file.name.split(".").pop()?.toLowerCase()}` ``:
the last dot-separated segment of the name, lowercased, with a leading dot.
(`split` never returns an empty array, so the optional chain always hits.) -/
def fileExtOf (name : String) : String :=
  String.mk ('.' :: ((splitOnChar '.' name.data).getLastD []).map Char.toLower)

/-- Function `validateFile` from the source: `some message` when validation fails
(unsupported extension, then oversize), `none` when the file is accepted. -/
def validateFile (file : FileMeta) : Option String :=
  let fileExt := fileExtOf file.name
  if ¬ (ALLOWED_EXTENSIONS.contains fileExt) then
    some ("File type not supported. Allowed: " ++ String.intercalate ", " ALLOWED_EXTENSIONS)
  else if file.size > MAX_FILE_SIZE then
    some ("File too large. Maximum size: " ++ formatFileSize MAX_FILE_SIZE)
  else
    none

/-- The `Array.from(files).forEach` loop of `handleFiles`: splits the
candidates into the valid files (kept for upload) and the new queue entries
(`error` items for failed validation, `pending` items otherwise). -/
def buildQueues : List FileMeta → List FileMeta × List UploadProgress
  | [] => ([], [])
  | file :: rest =>
    match validateFile file with
    | some err =>
        ((buildQueues rest).1, ⟨file, 0, Status.error, some err⟩ :: (buildQueues rest).2)
    | none =>
        (file :: (buildQueues rest).1, ⟨file, 0, Status.pending, none⟩ :: (buildQueues rest).2)

/-- A JavaScript thrown value, as the `catch` block distinguishes it:
either an `Error` instance carrying a `message`, or any other value. -/
inductive JsError where
  | errObj (msg : String)
  | nonError
deriving DecidableEq, Repr

/-- The message the `catch` block stores:
`error instanceof Error ? error.message : "Upload failed"`. -/
def JsError.toMessage : JsError → String
  | .errObj msg => msg
  | .nonError => "Upload failed"

/-- The outcome of one `uploadFile` call against the Transfer Endpoint:
resolve with a `FileUploadResponse` (only `fileId` is consumed) or reject. -/
inductive UploadOutcome where
  | success (fileId : String)
  | failure (e : JsError)
deriving DecidableEq, Repr

/-- The four item rewrites the upload loop performs through
`setUploadQueue(prev => prev.map(...))`. -/
inductive Transition where
  | toUploading
  | toProcessing
  | toCompleted
  | toError (msg : String)
deriving DecidableEq, Repr

/-- The object spread each rewrite applies to the targeted item. -/
def applyTransition : Transition → UploadProgress → UploadProgress
  | .toUploading, item => { item with status := Status.uploading, progress := 50 }
  | .toProcessing, item => { item with status := Status.processing, progress := 75 }
  | .toCompleted, item => { item with status := Status.completed, progress := 100 }
  | .toError msg, item =>
      { item with status := Status.error, progress := 0, error := some msg }

/-- The progress value each rewrite stores (independent of the old item). -/
def transProgress : Transition → Nat
  | .toUploading => 50
  | .toProcessing => 75
  | .toCompleted => 100
  | .toError _ => 0

/-- Observable steps of one `handleFiles` invocation: a call into the
Transfer Endpoint, its settlement, a functional queue update at an index,
or the completion callback (`onUploadComplete`). -/
inductive Event where
  | request (file : FileMeta)
  | settled (file : FileMeta) (outcome : UploadOutcome)
  | update (idx : Nat) (t : Transition)
  | callback (fileId : String)
deriving DecidableEq, Repr

/-- JavaScript `Array.prototype.map` with the element index as second
callback argument, the running index made explicit. -/
def mapWithIdx (f : Nat → UploadProgress → UploadProgress) :
    Nat → List UploadProgress → List UploadProgress
  | _, [] => []
  | i, item :: rest => f i item :: mapWithIdx f (i + 1) rest

/-- The whole-queue functional update the loop hands to `setUploadQueue`:
`prev.map((item, idx) => idx === queueIndex ? {...item, ...} : item)`. -/
def applyUpdate (queueIndex : Nat) (t : Transition)
    (prev : List UploadProgress) : List UploadProgress :=
  mapWithIdx (fun idx item => if idx = queueIndex then applyTransition t item else item)
    0 prev

/-- Effect of one event on the queue: only `update` events touch it. -/
def applyEvent (q : List UploadProgress) : Event → List UploadProgress
  | .update idx t => applyUpdate idx t q
  | _ => q

/-- Queue state after a sequence of events. -/
def runEvents (q : List UploadProgress) (evs : List Event) : List UploadProgress :=
  evs.foldl applyEvent q

/-- The body of the `for` loop of `handleFiles` for the file at loop counter
`i`: `queueIndex = uploadQueue.length + i` (here `prevLen + i`), then the
`uploading` update, the awaited `uploadFile` call, and — depending on how
the call settles — the `processing` update (success; the `completed` update
and callback are deferred by `setTimeout`) or the `catch` block's `error`
update (failure). -/
def taskMainEvents (prevLen i : Nat) (file : FileMeta) : UploadOutcome → List Event
  | .success fileId =>
      [Event.update (prevLen + i) Transition.toUploading,
       Event.request file,
       Event.settled file (UploadOutcome.success fileId),
       Event.update (prevLen + i) Transition.toProcessing]
  | .failure e =>
      [Event.update (prevLen + i) Transition.toUploading,
       Event.request file,
       Event.settled file (UploadOutcome.failure e),
       Event.update (prevLen + i) (Transition.toError e.toMessage)]

/-- The `setTimeout` body scheduled on success: the `completed` update at the
same `queueIndex`, then `onUploadComplete(response.fileId)`. -/
def taskDeferredEvents (prevLen i : Nat) : UploadOutcome → List (List Event)
  | .success fileId =>
      [[Event.update (prevLen + i) Transition.toCompleted, Event.callback fileId]]
  | .failure _ => []

/-- The serial `for` loop over the valid files: because `uploadFile` is
awaited inside the loop body, the whole event block of file `i` (up to its
settlement) is emitted before any event of file `i + 1`.  Returns the main
trace and, separately, the deferred `setTimeout` blocks in scheduling
order. -/
def uploadLoop (prevLen : Nat) (outcome : Nat → UploadOutcome) :
    Nat → List FileMeta → List Event × List (List Event)
  | _, [] => ([], [])
  | i, file :: rest =>
    (taskMainEvents prevLen i file (outcome i) ++ (uploadLoop prevLen outcome (i + 1) rest).1,
     taskDeferredEvents prevLen i (outcome i) ++ (uploadLoop prevLen outcome (i + 1) rest).2)

/-- Result of one `handleFiles` invocation: the queue right after the
synchronous append, the main event trace of the loop, and the deferred
completion blocks. -/
structure SubmitResult where
  queue : List UploadProgress
  trace : List Event
  deferred : List (List Event)
deriving DecidableEq, Repr

/-- Operation `handleFiles(files)` invoked from a quiescent state whose queue is `prev`:
validate and append all candidates, then run the upload loop over the valid
files with `queueIndex = prev.length + i`.  `outcome i` is how the `i`-th
`uploadFile` call settles. -/
def handleFiles (prev : List UploadProgress) (files : List FileMeta)
    (outcome : Nat → UploadOutcome) : SubmitResult :=
  ⟨prev ++ (buildQueues files).2,
   (uploadLoop prev.length outcome 0 (buildQueues files).1).1,
   (uploadLoop prev.length outcome 0 (buildQueues files).1).2⟩

/-- JavaScript `Array.prototype.filter` with the element index as second
callback argument, the running index made explicit. -/
def filterWithIdx (p : Nat → Bool) : Nat → List UploadProgress → List UploadProgress
  | _, [] => []
  | i, item :: rest =>
    if p i then item :: filterWithIdx p (i + 1) rest else filterWithIdx p (i + 1) rest

/-- Operation `removeFromQueue(index)` from the source:
`prev.filter((_, idx) => idx !== index)`. -/
def removeFromQueue (index : Nat) (prev : List UploadProgress) : List UploadProgress :=
  filterWithIdx (fun idx => idx != index) 0 prev

/-- The sequence of progress values the item at slot `idx` holds while the
events run: one observation per queue state (initial state included). -/
def progressSeq (idx : Nat) (q : List UploadProgress) : List Event → List Nat
  | [] => ((q.get? idx).map UploadProgress.progress).toList
  | e :: evs =>
    ((q.get? idx).map UploadProgress.progress).toList ++ progressSeq idx (applyEvent q e) evs

/-- The transitions a trace applies to slot `idx`, in order. -/
def slotTransitions (idx : Nat) : List Event → List Transition
  | [] => []
  | Event.update j t :: evs =>
    if j = idx then t :: slotTransitions idx evs else slotTransitions idx evs
  | _ :: evs => slotTransitions idx evs

/-- Event `e₁` occurs strictly before event `e₂` somewhere in the trace. -/
def precedesIn (tr : List Event) (e₁ e₂ : Event) : Prop :=
  ∃ i j : Fin tr.length, (i : Nat) < j ∧ tr.get i = e₁ ∧ tr.get j = e₂

instance (tr : List Event) (e₁ e₂ : Event) : Decidable (precedesIn tr e₁ e₂) := by
  unfold precedesIn; infer_instance

/-- The spec invariant of claim C4: an item's error message is non-null
exactly in the `error` state. -/
def errorIffErrorState (q : List UploadProgress) : Prop :=
  ∀ it ∈ q, (it.error ≠ none ↔ it.status = Status.error)

instance (q : List UploadProgress) : Decidable (errorIffErrorState q) := by
  unfold errorIffErrorState; infer_instance

/-- The queue rewrites the main loop applies for one upload, in order:
`uploading` then, depending on the settlement, `processing` or the
`catch` block's `error` rewrite. -/
def mainTransitions : UploadOutcome → List Transition
  | .success _ => [Transition.toUploading, Transition.toProcessing]
  | .failure e => [Transition.toUploading, Transition.toError e.toMessage]

/-- The queue rewrite the deferred `setTimeout` block applies: `completed`
on success, nothing on failure. -/
def deferredTransitions : UploadOutcome → List Transition
  | .success _ => [Transition.toCompleted]
  | .failure _ => []

/-- The slot indices targeted by the `update` events of a trace, in order. -/
def updateIndices (evs : List Event) : List Nat :=
  evs.filterMap (fun e =>
    match e with
    | Event.update i _ => some i
    | _ => none)

/-- Order on successive progress observations: non-decreasing, except that a
step may reset the value to 0. -/
def ResetLE (a b : Nat) : Prop := a ≤ b ∨ b = 0

instance (a b : Nat) : Decidable (ResetLE a b) := by
  unfold ResetLE; infer_instance

/-- A file rejected by validation (extension `.exe`). -/
def exeFile : FileMeta := ⟨"malware.exe", 1024⟩

/-- A file accepted by validation. -/
def csvFile : FileMeta := ⟨"data.csv", 1024⟩

/-- Two further accepted files. -/
def aFile : FileMeta := ⟨"a.csv", 1⟩

/-- Second accepted file of the two-file batch. -/
def bFile : FileMeta := ⟨"b.csv", 1⟩

/-- The message `validateFile` produces for an unsupported extension. -/
def typeErrMsg : String :=
  "File type not supported. Allowed: .csv, .xlsx, .xls, .pdf, .png, .jpg, .jpeg"

/-- A mixed batch: one invalid file followed by one valid file whose upload
succeeds. -/
def mixedRun : SubmitResult :=
  handleFiles [] [exeFile, csvFile] (fun _ => UploadOutcome.success "file-1")

/-- A single valid file whose upload fails. -/
def failRun : SubmitResult :=
  handleFiles [] [aFile] (fun _ => UploadOutcome.failure (JsError.errObj "boom"))

/-- Two valid files in one batch, both uploads succeeding. -/
def serialRun : SubmitResult :=
  handleFiles [] [aFile, bFile] (fun _ => UploadOutcome.success "x")

/-- A mixed batch of one invalid and two valid files, where the first valid
file's upload fails and the second succeeds. -/
def c7Run : SubmitResult :=
  handleFiles [] [exeFile, aFile, bFile]
    (fun i => if i = 0 then UploadOutcome.failure (JsError.errObj "Network error")
              else UploadOutcome.success "file-2")

lemma applyTransition_progress (t : Transition) (item : UploadProgress) :
    (applyTransition t item).progress = transProgress t := by
  cases t <;> rfl

lemma applyTransition_file (t : Transition) (item : UploadProgress) :
    (applyTransition t item).file = item.file := by
  cases t <;> rfl

lemma mapWithIdx_get? (f : Nat → UploadProgress → UploadProgress) :
    ∀ (l : List UploadProgress) (i k : Nat),
      (mapWithIdx f i l).get? k = (l.get? k).map (f (i + k)) := by
  intro l
  induction l with
  | nil => intro i k; simp [mapWithIdx]
  | cons a rest ih =>
    intro i k
    cases k with
    | zero => simp [mapWithIdx]
    | succ k =>
      have harith : i + (k + 1) = (i + 1) + k := by omega
      show (mapWithIdx f (i + 1) rest).get? k = (rest.get? k).map (f (i + (k + 1)))
      rw [ih (i + 1) k, harith]

lemma mapWithIdx_length (f : Nat → UploadProgress → UploadProgress) :
    ∀ (l : List UploadProgress) (i : Nat), (mapWithIdx f i l).length = l.length := by
  intro l
  induction l with
  | nil => intro i; rfl
  | cons a rest ih => intro i; simp [mapWithIdx, ih]

lemma applyUpdate_get? (qi : Nat) (t : Transition) (q : List UploadProgress) (k : Nat) :
    (applyUpdate qi t q).get? k =
      if k = qi then (q.get? k).map (applyTransition t) else q.get? k := by
  unfold applyUpdate
  rw [mapWithIdx_get?]
  simp only [Nat.zero_add]
  by_cases h : k = qi
  · simp [h]
  · simp only [h, if_false]
    cases q.get? k <;> rfl

lemma applyEvent_length (q : List UploadProgress) (e : Event) :
    (applyEvent q e).length = q.length := by
  cases e <;> simp [applyEvent, applyUpdate, mapWithIdx_length]

lemma applyEvent_get?_of_ne (q : List UploadProgress) (j : Nat) (t : Transition)
    (k : Nat) (h : k ≠ j) :
    (applyEvent q (Event.update j t)).get? k = q.get? k := by
  show (applyUpdate j t q).get? k = q.get? k
  rw [applyUpdate_get?, if_neg h]

lemma applyEvent_get?_self (q : List UploadProgress) (j : Nat) (t : Transition) :
    (applyEvent q (Event.update j t)).get? j = (q.get? j).map (applyTransition t) := by
  show (applyUpdate j t q).get? j = (q.get? j).map (applyTransition t)
  rw [applyUpdate_get?, if_pos rfl]

lemma buildQueues_snd (files : List FileMeta) :
    (buildQueues files).2 = files.map (fun f =>
      match validateFile f with
      | some msg => ⟨f, 0, Status.error, some msg⟩
      | none => ⟨f, 0, Status.pending, none⟩) := by
  induction files with
  | nil => rfl
  | cons f rest ih => cases h : validateFile f <;> simp [buildQueues, h, ih]

lemma buildQueues_fst_length (files : List FileMeta) :
    (buildQueues files).1.length ≤ files.length := by
  induction files with
  | nil => simp [buildQueues]
  | cons f rest ih =>
    cases h : validateFile f <;> simp [buildQueues, h] <;> omega

lemma mem_buildQueues_fst (files : List FileMeta) (f : FileMeta)
    (hmem : f ∈ (buildQueues files).1) : validateFile f = none := by
  induction files with
  | nil => simp [buildQueues] at hmem
  | cons g rest ih =>
    cases h : validateFile g with
    | some msg => rw [buildQueues, h] at hmem; exact ih hmem
    | none =>
      rw [buildQueues, h] at hmem
      rcases List.mem_cons.mp hmem with hfg | hmem'
      · rw [hfg]; exact h
      · exact ih hmem'

lemma request_mem_taskMain (prevLen i : Nat) (file f : FileMeta) (oc : UploadOutcome)
    (h : Event.request f ∈ taskMainEvents prevLen i file oc) : f = file := by
  cases oc <;> simp [taskMainEvents] at h <;> exact h

lemma request_mem_uploadLoop (prevLen : Nat) (outcome : Nat → UploadOutcome) :
    ∀ (vf : List FileMeta) (i : Nat) (f : FileMeta),
      Event.request f ∈ (uploadLoop prevLen outcome i vf).1 → f ∈ vf := by
  intro vf
  induction vf with
  | nil => intro i f h; simp [uploadLoop] at h
  | cons g rest ih =>
    intro i f h
    simp only [uploadLoop, List.mem_append] at h
    rcases h with h | h
    · exact (request_mem_taskMain _ _ _ _ _ h) ▸ List.mem_cons_self g rest
    · exact List.mem_cons_of_mem g (ih (i + 1) f h)

lemma filterWithIdx_high (index : Nat) :
    ∀ (q : List UploadProgress) (i : Nat), index < i →
      filterWithIdx (fun idx => idx != index) i q = q := by
  intro q
  induction q with
  | nil => intro i _; rfl
  | cons a rest ih =>
    intro i h
    have hne : (i != index) = true := by
      simp only [bne_iff_ne, ne_eq]
      omega
    simp [filterWithIdx, hne, ih (i + 1) (by omega)]

lemma filterWithIdx_eq_take_drop (index : Nat) :
    ∀ (q : List UploadProgress) (i : Nat), i ≤ index →
      filterWithIdx (fun idx => idx != index) i q =
        q.take (index - i) ++ q.drop (index - i + 1) := by
  intro q
  induction q with
  | nil => intro i _; simp [filterWithIdx]
  | cons a rest ih =>
    intro i h
    by_cases hi : i = index
    · have hfalse : (i != index) = false := by simp [hi]
      have h0 : index - i = 0 := by omega
      simp [filterWithIdx, hfalse, h0, filterWithIdx_high index rest (i + 1) (by omega)]
    · have htrue : (i != index) = true := by
        simp only [bne_iff_ne, ne_eq]
        exact hi
      have harith : index - i = (index - (i + 1)) + 1 := by omega
      simp [filterWithIdx, htrue, ih (i + 1) (by omega), harith]

lemma validateFile_none_iff (f : FileMeta) :
    validateFile f = none ↔
      (ALLOWED_EXTENSIONS.contains (fileExtOf f.name) = true ∧ f.size ≤ MAX_FILE_SIZE) := by
  by_cases hext : fileExtOf f.name ∈ ALLOWED_EXTENSIONS
  · by_cases hsz : f.size ≤ MAX_FILE_SIZE
    · simp [validateFile, hext, hsz, Nat.not_lt.mpr hsz]
    · have hgt : MAX_FILE_SIZE < f.size := by omega
      simp [validateFile, hext, hgt, not_le.mpr hgt]
  · simp [validateFile, hext]

/-- C1: for every candidate file, `submit` appends (at the end of the queue,
in candidate order) an item that is in the `error` state with the validation
message exactly when validation fails (extension outside the allow-list, or
size above the ceiling), and otherwise a `pending` item with progress 0 and
null error; no `uploadFile` request is ever issued for a file that fails
validation. -/
theorem submit_validation_and_queueing (prev : List UploadProgress) (files : List FileMeta)
    (outcome : Nat → UploadOutcome) :
    (handleFiles prev files outcome).queue =
      prev ++ files.map (fun f =>
        match validateFile f with
        | some msg => ⟨f, 0, Status.error, some msg⟩
        | none => ⟨f, 0, Status.pending, none⟩)
    ∧ (∀ f : FileMeta, validateFile f = none ↔
        (ALLOWED_EXTENSIONS.contains (fileExtOf f.name) = true ∧ f.size ≤ MAX_FILE_SIZE))
    ∧ (∀ f : FileMeta, validateFile f ≠ none →
        Event.request f ∉ (handleFiles prev files outcome).trace) := by
  refine ⟨?_, ?_, ?_⟩
  · show prev ++ (buildQueues files).2 = _
    rw [buildQueues_snd]
  · exact validateFile_none_iff
  · intro f hval hmem
    exact hval (mem_buildQueues_fst files f
      (request_mem_uploadLoop prev.length outcome _ 0 f hmem))

/-- Witness for C1: the invalid file of the mixed batch fails validation and
no transfer request is issued for it. -/
theorem submit_validation_and_queueing_witness :
    validateFile exeFile ≠ none ∧ Event.request exeFile ∉ mixedRun.trace :=
  ⟨by decide,
   (submit_validation_and_queueing [] [exeFile, csvFile]
      (fun _ => UploadOutcome.success "file-1")).2.2 exeFile (by decide)⟩

/-- C9: `dismiss(index)` removes exactly the item at `index` and keeps the
remaining items in their original relative order (the queue becomes
`take index ++ drop (index + 1)`); an index not present in the queue leaves
the queue unchanged. -/
theorem dismiss_removes_exactly (q : List UploadProgress) (index : Nat) :
    removeFromQueue index q = q.take index ++ q.drop (index + 1)
    ∧ (q.length ≤ index → removeFromQueue index q = q) := by
  have h1 : removeFromQueue index q = q.take index ++ q.drop (index + 1) := by
    have h := filterWithIdx_eq_take_drop index q 0 (Nat.zero_le _)
    simpa [removeFromQueue] using h
  refine ⟨h1, fun hlen => ?_⟩
  rw [h1, List.take_of_length_le hlen, List.drop_eq_nil_of_le (by omega), List.append_nil]

/-- Witness for C9: dismissing index 5 of a one-item queue is a no-op. -/
theorem dismiss_removes_exactly_witness :
    removeFromQueue 5 [⟨aFile, 0, Status.pending, none⟩] =
      [⟨aFile, 0, Status.pending, none⟩] :=
  (dismiss_removes_exactly [⟨aFile, 0, Status.pending, none⟩] 5).2 (by decide)

/-- C10: the 50 MiB ceiling is strict — a file with an allow-listed
extension passes validation exactly when its size is at most
52428800 bytes. -/
theorem size_ceiling_strict :
    MAX_FILE_SIZE = 52428800
    ∧ ∀ f : FileMeta, ALLOWED_EXTENSIONS.contains (fileExtOf f.name) = true →
        (validateFile f = none ↔ f.size ≤ 52428800) := by
  refine ⟨rfl, fun f hext => ?_⟩
  have hmem : fileExtOf f.name ∈ ALLOWED_EXTENSIONS := by simpa using hext
  have hM : MAX_FILE_SIZE = 52428800 := rfl
  rw [validateFile_none_iff, hM]
  simp [hmem]

/-- Witness for C10: exactly 52428800 bytes passes, one byte more fails. -/
theorem size_ceiling_strict_witness :
    validateFile ⟨"data.csv", 52428800⟩ = none
    ∧ validateFile ⟨"data.csv", 52428801⟩ ≠ none := by
  constructor
  · exact (size_ceiling_strict.2 ⟨"data.csv", 52428800⟩ (by decide)).mpr (by decide)
  · intro h
    have hle := (size_ceiling_strict.2 ⟨"data.csv", 52428801⟩ (by decide)).mp h
    exact absurd hle (by decide)

/-- C2 (code bug): in the mixed batch `[malware.exe, data.csv]`, every queue
update of the lifecycle of `data.csv` (the only valid file, whose Transfer
Item sits at slot 1) targets slot 0 — the slot of the `malware.exe` error
item, which is advanced to `processing` while the `data.csv` item never
leaves `pending`. -/
theorem mixed_batch_updates_wrong_slot :
    updateIndices mixedRun.trace = [0, 0]
    ∧ runEvents mixedRun.queue mixedRun.trace =
        [⟨exeFile, 75, Status.processing, some typeErrMsg⟩,
         ⟨csvFile, 0, Status.pending, none⟩] :=
  ⟨rfl, rfl⟩

/-- C4 (code bug): after the mixed batch runs, the queue violates the
invariant "error message is non-null iff the state is `error`": slot 0 is in
the `processing` state while still carrying the validation error message. -/
theorem error_iff_error_state_violated :
    ¬ errorIffErrorState (runEvents mixedRun.queue mixedRun.trace) := by
  decide

/-- C3 counterexample: a single valid file whose upload fails holds the
progress values 0, 50, 50, 50, 0 across the run (one observation per queue
state) — not non-decreasing, because the `catch` transition to `error`
resets progress to 0. -/
theorem progress_not_monotone_on_error :
    progressSeq 0 failRun.queue failRun.trace = [0, 50, 50, 50, 0]
    ∧ ¬ List.Chain' (· ≤ ·) (progressSeq 0 failRun.queue failRun.trace) := by
  have hseq : progressSeq 0 failRun.queue failRun.trace = [0, 50, 50, 50, 0] := by decide
  refine ⟨hseq, ?_⟩
  rw [hseq]
  intro h
  simp [List.chain'_cons] at h

/-- C5 counterexample: with two valid files in one batch, the transfer
request for the second file is never issued before the first file's transfer
settles (the loop awaits each `uploadFile` call), although it is issued
afterwards. -/
theorem later_request_waits_for_earlier_settlement :
    ¬ precedesIn serialRun.trace (Event.request bFile)
        (Event.settled aFile (UploadOutcome.success "x"))
    ∧ Event.request bFile ∈ serialRun.trace := by
  constructor
  · decide
  · decide

/-- C7 (code bug): in the batch `[malware.exe, a.csv, b.csv]` where the
upload of `a.csv` is rejected with `Error("Network error")`, the caught
failure is written to slot 0 (the `malware.exe` validation-error item, whose
message it overwrites), while the item of the failed file `a.csv` never
enters the `error` state; the sibling `b.csv` is still requested. -/
theorem endpoint_failure_written_to_wrong_item :
    runEvents c7Run.queue c7Run.trace =
      [⟨exeFile, 0, Status.error, some "Network error"⟩,
       ⟨aFile, 75, Status.processing, none⟩,
       ⟨bFile, 0, Status.pending, none⟩]
    ∧ Event.request bFile ∈ c7Run.trace := by
  constructor
  · rfl
  · decide

lemma mapWithIdx_map_file (f : Nat → UploadProgress → UploadProgress)
    (hf : ∀ i item, (f i item).file = item.file) :
    ∀ (l : List UploadProgress) (i : Nat),
      (mapWithIdx f i l).map UploadProgress.file = l.map UploadProgress.file := by
  intro l
  induction l with
  | nil => intro i; rfl
  | cons a rest ih => intro i; simp [mapWithIdx, hf, ih]

lemma applyEvent_map_file (q : List UploadProgress) (e : Event) :
    (applyEvent q e).map UploadProgress.file = q.map UploadProgress.file := by
  cases e with
  | update j t =>
    show (applyUpdate j t q).map UploadProgress.file = _
    unfold applyUpdate
    apply mapWithIdx_map_file
    intro i item
    by_cases h : i = j <;> simp [h, applyTransition_file]
  | request f => rfl
  | settled f oc => rfl
  | callback s => rfl

lemma runEvents_map_file (evs : List Event) :
    ∀ (q : List UploadProgress),
      (runEvents q evs).map UploadProgress.file = q.map UploadProgress.file := by
  induction evs with
  | nil => intro q; rfl
  | cons e evs ih =>
    intro q
    show (runEvents (applyEvent q e) evs).map _ = _
    rw [ih, applyEvent_map_file]

lemma buildQueues_snd_files (files : List FileMeta) :
    (buildQueues files).2.map UploadProgress.file = files := by
  induction files with
  | nil => rfl
  | cons f rest ih => cases h : validateFile f <;> simp [buildQueues, h, ih]

/-- C6: items appear in the queue in submission order — `submit` appends the
new items at the end in candidate order, and no sequence of queue updates
(any interleaving of lifecycle transitions, including deferred completions)
changes the length of the queue or the file occupying any slot. -/
theorem queue_order_stable (prev : List UploadProgress) (files : List FileMeta)
    (outcome : Nat → UploadOutcome) (evs : List Event) :
    (handleFiles prev files outcome).queue.map UploadProgress.file =
      prev.map UploadProgress.file ++ files
    ∧ (runEvents (handleFiles prev files outcome).queue evs).map UploadProgress.file =
      prev.map UploadProgress.file ++ files := by
  have h1 : (handleFiles prev files outcome).queue.map UploadProgress.file =
      prev.map UploadProgress.file ++ files := by
    show (prev ++ (buildQueues files).2).map _ = _
    rw [List.map_append, buildQueues_snd_files]
  exact ⟨h1, by rw [runEvents_map_file, h1]⟩

lemma deferred_mem_of_success (prevLen : Nat) (outcome : Nat → UploadOutcome) :
    ∀ (vf : List FileMeta) (i j : Nat) (fileId : String),
      j < vf.length → outcome (i + j) = UploadOutcome.success fileId →
      [Event.update (prevLen + (i + j)) Transition.toCompleted, Event.callback fileId]
        ∈ (uploadLoop prevLen outcome i vf).2 := by
  intro vf
  induction vf with
  | nil => intro i j fileId hj _; simp at hj
  | cons g rest ih =>
    intro i j fileId hj hoc
    cases j with
    | zero =>
      simp only [Nat.add_zero] at hoc ⊢
      simp only [uploadLoop, List.mem_append]
      left
      rw [hoc]
      simp [taskDeferredEvents]
    | succ j =>
      simp only [uploadLoop, List.mem_append]
      right
      have harith : i + (j + 1) = (i + 1) + j := by omega
      rw [harith] at hoc ⊢
      have hlen : j < rest.length := by
        have : (g :: rest).length = rest.length + 1 := rfl
        omega
      exact ih (i + 1) j fileId hlen hoc

lemma deferred_shape (prevLen : Nat) (outcome : Nat → UploadOutcome) :
    ∀ (vf : List FileMeta) (i : Nat) (blk : List Event),
      blk ∈ (uploadLoop prevLen outcome i vf).2 →
      ∃ c fileId, i ≤ c ∧ c < i + vf.length ∧ outcome c = UploadOutcome.success fileId ∧
        blk = [Event.update (prevLen + c) Transition.toCompleted, Event.callback fileId] := by
  intro vf
  induction vf with
  | nil => intro i blk h; simp [uploadLoop] at h
  | cons g rest ih =>
    intro i blk h
    have hlen : (g :: rest).length = rest.length + 1 := rfl
    simp only [uploadLoop, List.mem_append] at h
    rcases h with h | h
    · cases hoc : outcome i with
      | success fileId =>
        rw [hoc] at h
        simp only [taskDeferredEvents, List.mem_singleton] at h
        exact ⟨i, fileId, le_refl i, by omega, hoc, h⟩
      | failure e =>
        rw [hoc] at h
        simp [taskDeferredEvents] at h
    · obtain ⟨c, fileId, hc1, hc2, hoc, hblk⟩ := ih (i + 1) blk h
      exact ⟨c, fileId, by omega, by omega, hoc, hblk⟩

lemma applyTransition_completed (t : Transition) (item : UploadProgress)
    (h : (applyTransition t item).status = Status.completed) :
    (applyTransition t item).progress = 100 := by
  cases t <;> simp [applyTransition] at h ⊢

/-- C8: for every upload that the Transfer Endpoint answers with success,
exactly one deferred block is scheduled, and it pairs the `completed` update
for the computed slot with the callback carrying the `fileId` returned for
that upload; conversely every deferred block arises this way, and any
transition that puts an item into the `completed` state gives it
progress 100. -/
theorem completion_sets_progress_100_and_fires_callback
    (prev : List UploadProgress) (files : List FileMeta) (outcome : Nat → UploadOutcome) :
    (∀ j fileId, j < (buildQueues files).1.length →
        outcome j = UploadOutcome.success fileId →
        [Event.update (prev.length + j) Transition.toCompleted, Event.callback fileId]
          ∈ (handleFiles prev files outcome).deferred)
    ∧ (∀ blk ∈ (handleFiles prev files outcome).deferred, ∃ j fileId,
        j < (buildQueues files).1.length ∧ outcome j = UploadOutcome.success fileId ∧
        blk = [Event.update (prev.length + j) Transition.toCompleted, Event.callback fileId])
    ∧ (∀ (t : Transition) (item : UploadProgress),
        (applyTransition t item).status = Status.completed →
        (applyTransition t item).progress = 100) := by
  refine ⟨?_, ?_, ?_⟩
  · intro j fileId hj hoc
    have h := deferred_mem_of_success prev.length outcome (buildQueues files).1 0 j fileId hj
      (by simpa using hoc)
    simpa using h
  · intro blk hblk
    obtain ⟨c, fileId, _, hc2, hoc, h⟩ :=
      deferred_shape prev.length outcome (buildQueues files).1 0 blk hblk
    exact ⟨c, fileId, by omega, hoc, h⟩
  · intro t item h
    exact applyTransition_completed t item h

/-- Witness for C8: a single successful upload schedules the completion
block for slot 0 with the returned identifier. -/
theorem completion_sets_progress_100_witness :
    [Event.update 0 Transition.toCompleted, Event.callback "file-9"]
      ∈ (handleFiles [] [aFile] (fun _ => UploadOutcome.success "file-9")).deferred := by
  have h := (completion_sets_progress_100_and_fires_callback [] [aFile]
      (fun _ => UploadOutcome.success "file-9")).1 0 "file-9" (by decide) rfl
  simpa using h

lemma progressSeq_head (idx : Nat) (q : List UploadProgress) (evs : List Event)
    (item : UploadProgress) (h : q.get? idx = some item) :
    (progressSeq idx q evs).head? = some item.progress := by
  have h' : q[idx]? = some item := by rw [← List.get?_eq_getElem?]; exact h
  cases evs <;> simp [progressSeq, h, h']

lemma progressSeq_oob (idx : Nat) :
    ∀ (evs : List Event) (q : List UploadProgress), q.length ≤ idx →
      progressSeq idx q evs = [] := by
  intro evs
  induction evs with
  | nil =>
    intro q h
    have hN : q[idx]? = none := by
      rw [← List.get?_eq_getElem?]; exact List.get?_eq_none.mpr h
    simp [progressSeq, hN]
  | cons e evs ih =>
    intro q h
    have hN : q[idx]? = none := by
      rw [← List.get?_eq_getElem?]; exact List.get?_eq_none.mpr h
    have h2 : (applyEvent q e).length ≤ idx := by rw [applyEvent_length]; exact h
    simp [progressSeq, hN, ih _ h2]

lemma slotTransitions_append (idx : Nat) :
    ∀ (a b : List Event),
      slotTransitions idx (a ++ b) = slotTransitions idx a ++ slotTransitions idx b := by
  intro a
  induction a with
  | nil => intro b; rfl
  | cons e a ih =>
    intro b
    cases e with
    | update j t => by_cases hj : j = idx <;> simp [slotTransitions, hj, ih]
    | request f => simpa [slotTransitions] using ih b
    | settled f oc => simpa [slotTransitions] using ih b
    | callback s => simpa [slotTransitions] using ih b

lemma slotTransitions_taskMain (prevLen i idx : Nat) (file : FileMeta) (oc : UploadOutcome) :
    slotTransitions idx (taskMainEvents prevLen i file oc) =
      if prevLen + i = idx then mainTransitions oc else [] := by
  cases oc <;> by_cases h : prevLen + i = idx <;>
    simp [taskMainEvents, slotTransitions, mainTransitions, h]

lemma slotTransitions_taskDeferred (prevLen i idx : Nat) (oc : UploadOutcome) :
    slotTransitions idx (taskDeferredEvents prevLen i oc).flatten =
      if prevLen + i = idx then deferredTransitions oc else [] := by
  cases oc <;> by_cases h : prevLen + i = idx <;>
    simp [taskDeferredEvents, slotTransitions, deferredTransitions, h]

lemma slotTransitions_uploadLoop_low (prevLen : Nat) (outcome : Nat → UploadOutcome) :
    ∀ (vf : List FileMeta) (i idx : Nat), idx < prevLen →
      slotTransitions idx (uploadLoop prevLen outcome i vf).1 = []
      ∧ slotTransitions idx (uploadLoop prevLen outcome i vf).2.flatten = [] := by
  intro vf
  induction vf with
  | nil => intro i idx h; simp [uploadLoop, slotTransitions]
  | cons g rest ih =>
    intro i idx h
    constructor
    · show slotTransitions idx
        (taskMainEvents prevLen i g (outcome i) ++ (uploadLoop prevLen outcome (i + 1) rest).1) = []
      rw [slotTransitions_append, slotTransitions_taskMain, (ih (i + 1) idx h).1,
        if_neg (by omega)]
      rfl
    · show slotTransitions idx
        ((taskDeferredEvents prevLen i (outcome i) ++ (uploadLoop prevLen outcome (i + 1) rest).2).flatten) = []
      rw [List.flatten_append, slotTransitions_append, slotTransitions_taskDeferred,
        (ih (i + 1) idx h).2, if_neg (by omega)]
      rfl

lemma slotTransitions_uploadLoop (prevLen : Nat) (outcome : Nat → UploadOutcome) :
    ∀ (vf : List FileMeta) (i j : Nat),
      (slotTransitions (prevLen + j) (uploadLoop prevLen outcome i vf).1 =
        if i ≤ j ∧ j < i + vf.length then mainTransitions (outcome j) else [])
      ∧ (slotTransitions (prevLen + j) (uploadLoop prevLen outcome i vf).2.flatten =
        if i ≤ j ∧ j < i + vf.length then deferredTransitions (outcome j) else []) := by
  intro vf
  induction vf with
  | nil =>
    intro i j
    simp [uploadLoop, slotTransitions]
  | cons g rest ih =>
    intro i j
    have hlen : (g :: rest).length = rest.length + 1 := rfl
    constructor
    · show slotTransitions (prevLen + j)
        (taskMainEvents prevLen i g (outcome i) ++ (uploadLoop prevLen outcome (i + 1) rest).1) = _
      rw [slotTransitions_append, slotTransitions_taskMain, (ih (i + 1) j).1, hlen]
      by_cases hij : i = j
      · subst hij
        rw [if_pos rfl, if_neg (by omega), if_pos (by omega)]
        simp
      · rw [if_neg (by omega)]
        by_cases hc : i ≤ j ∧ j < i + (rest.length + 1)
        · rw [if_pos (by omega), if_pos hc]
          simp
        · rw [if_neg (by omega), if_neg hc]
          simp
    · show slotTransitions (prevLen + j)
        ((taskDeferredEvents prevLen i (outcome i) ++ (uploadLoop prevLen outcome (i + 1) rest).2).flatten) = _
      rw [List.flatten_append, slotTransitions_append, slotTransitions_taskDeferred,
        (ih (i + 1) j).2, hlen]
      by_cases hij : i = j
      · subst hij
        rw [if_pos rfl, if_neg (by omega), if_pos (by omega)]
        simp
      · rw [if_neg (by omega)]
        by_cases hc : i ≤ j ∧ j < i + (rest.length + 1)
        · rw [if_pos (by omega), if_pos hc]
          simp
        · rw [if_neg (by omega), if_neg hc]
          simp

lemma chain_progressSeq (idx : Nat) :
    ∀ (evs : List Event) (q : List UploadProgress),
      List.Chain' ResetLE (((q.get? idx).map UploadProgress.progress).toList
          ++ (slotTransitions idx evs).map transProgress) →
      List.Chain' ResetLE (progressSeq idx q evs) := by
  intro evs
  induction evs with
  | nil =>
    intro q h
    have hnil : slotTransitions idx ([] : List Event) = [] := rfl
    rw [hnil] at h
    simp only [List.map_nil, List.append_nil] at h
    simpa [progressSeq] using h
  | cons e evs ih =>
    intro q h
    cases hv : q.get? idx with
    | none =>
      have hlen : q.length ≤ idx := List.get?_eq_none.mp hv
      rw [progressSeq_oob idx (e :: evs) q hlen]
      exact List.chain'_nil
    | some item =>
      rw [hv] at h
      simp only [Option.map_some', Option.toList_some, List.singleton_append] at h
      show List.Chain' ResetLE
        (((q.get? idx).map UploadProgress.progress).toList ++ progressSeq idx (applyEvent q e) evs)
      rw [hv]
      simp only [Option.map_some', Option.toList_some, List.singleton_append]
      cases e with
      | update j t =>
        by_cases hj : j = idx
        · subst hj
          have hq' : (applyEvent q (Event.update j t)).get? j = some (applyTransition t item) := by
            rw [applyEvent_get?_self, hv]
            rfl
          have hslot : slotTransitions j (Event.update j t :: evs)
              = t :: slotTransitions j evs := by
            simp [slotTransitions]
          rw [hslot] at h
          simp only [List.map_cons] at h
          have hpair := List.chain'_cons.mp h
          have htail : List.Chain' ResetLE (progressSeq j (applyEvent q (Event.update j t)) evs) := by
            apply ih
            rw [hq']
            simpa only [Option.map_some', Option.toList_some, List.singleton_append,
              applyTransition_progress] using hpair.2
          apply htail.cons'
          intro y hy
          rw [progressSeq_head j _ evs _ hq'] at hy
          simp only [Option.mem_def, Option.some_inj] at hy
          subst hy
          rw [applyTransition_progress]
          exact hpair.1
        · have hq' : (applyEvent q (Event.update j t)).get? idx = some item := by
            rw [applyEvent_get?_of_ne q j t idx (fun he => hj he.symm), hv]
          have hslot : slotTransitions idx (Event.update j t :: evs)
              = slotTransitions idx evs := by
            simp [slotTransitions, hj]
          rw [hslot] at h
          have htail : List.Chain' ResetLE
              (progressSeq idx (applyEvent q (Event.update j t)) evs) := by
            apply ih
            rw [hq']
            simpa only [Option.map_some', Option.toList_some, List.singleton_append] using h
          apply htail.cons'
          intro y hy
          rw [progressSeq_head idx _ evs _ hq'] at hy
          simp only [Option.mem_def, Option.some_inj] at hy
          subst hy
          exact Or.inl (le_refl _)
      | request f =>
        have hq' : (applyEvent q (Event.request f)).get? idx = some item := hv
        have htail : List.Chain' ResetLE (progressSeq idx (applyEvent q (Event.request f)) evs) := by
          apply ih
          rw [hq']
          simpa only [Option.map_some', Option.toList_some, List.singleton_append] using h
        apply htail.cons'
        intro y hy
        rw [progressSeq_head idx _ evs _ hq'] at hy
        simp only [Option.mem_def, Option.some_inj] at hy
        subst hy
        exact Or.inl (le_refl _)
      | settled f oc =>
        have hq' : (applyEvent q (Event.settled f oc)).get? idx = some item := hv
        have htail : List.Chain' ResetLE
            (progressSeq idx (applyEvent q (Event.settled f oc)) evs) := by
          apply ih
          rw [hq']
          simpa only [Option.map_some', Option.toList_some, List.singleton_append] using h
        apply htail.cons'
        intro y hy
        rw [progressSeq_head idx _ evs _ hq'] at hy
        simp only [Option.mem_def, Option.some_inj] at hy
        subst hy
        exact Or.inl (le_refl _)
      | callback s =>
        have hq' : (applyEvent q (Event.callback s)).get? idx = some item := hv
        have htail : List.Chain' ResetLE
            (progressSeq idx (applyEvent q (Event.callback s)) evs) := by
          apply ih
          rw [hq']
          simpa only [Option.map_some', Option.toList_some, List.singleton_append] using h
        apply htail.cons'
        intro y hy
        rw [progressSeq_head idx _ evs _ hq'] at hy
        simp only [Option.mem_def, Option.some_inj] at hy
        subst hy
        exact Or.inl (le_refl _)

lemma buildQueues_snd_length (files : List FileMeta) :
    (buildQueues files).2.length = files.length := by
  have h := congrArg List.length (buildQueues_snd_files files)
  simpa using h

lemma buildQueues_snd_progress (files : List FileMeta) (j : Nat) (entry : UploadProgress)
    (h : (buildQueues files).2.get? j = some entry) : entry.progress = 0 := by
  rw [buildQueues_snd, List.get?_map] at h
  cases hf : files.get? j with
  | none => rw [hf] at h; simp at h
  | some f =>
    rw [hf] at h
    simp only [Option.map_some', Option.some_inj] at h
    cases hval : validateFile f with
    | some msg => rw [hval] at h; rw [← h]
    | none => rw [hval] at h; rw [← h]

/-- C3 amended: for every queue slot, the sequence of progress values the
item in that slot holds across the whole submit run (initial state, the main
trace, then the deferred completion blocks) is non-decreasing except that a
transition may reset the value to 0 — the reset happening exactly at the
transition into the `error` state, which stores progress 0. -/
theorem progress_monotone_amended (prev : List UploadProgress) (files : List FileMeta)
    (outcome : Nat → UploadOutcome) (idx : Nat) :
    List.Chain' ResetLE (progressSeq idx (handleFiles prev files outcome).queue
      ((handleFiles prev files outcome).trace
        ++ (handleFiles prev files outcome).deferred.flatten)) := by
  apply chain_progressSeq
  rw [slotTransitions_append]
  have htr : (handleFiles prev files outcome).trace
      = (uploadLoop prev.length outcome 0 (buildQueues files).1).1 := rfl
  have hdf : (handleFiles prev files outcome).deferred
      = (uploadLoop prev.length outcome 0 (buildQueues files).1).2 := rfl
  rw [htr, hdf]
  by_cases hlow : idx < prev.length
  · rw [(slotTransitions_uploadLoop_low prev.length outcome (buildQueues files).1 0 idx hlow).1,
      (slotTransitions_uploadLoop_low prev.length outcome (buildQueues files).1 0 idx hlow).2]
    simp only [List.append_nil, List.map_nil]
    cases hq : (handleFiles prev files outcome).queue.get? idx with
    | none => exact List.chain'_nil
    | some it => exact List.chain'_singleton _
  · push_neg at hlow
    obtain ⟨j, rfl⟩ : ∃ j, idx = prev.length + j := ⟨idx - prev.length, by omega⟩
    rw [(slotTransitions_uploadLoop prev.length outcome (buildQueues files).1 0 j).1,
      (slotTransitions_uploadLoop prev.length outcome (buildQueues files).1 0 j).2]
    by_cases hrange : 0 ≤ j ∧ j < 0 + (buildQueues files).1.length
    · rw [if_pos hrange, if_pos hrange]
      have hjf : j < files.length := by
        have h1 := buildQueues_fst_length files
        omega
      have hjq : j < (buildQueues files).2.length := by
        rw [buildQueues_snd_length]
        exact hjf
      have hget : (handleFiles prev files outcome).queue.get? (prev.length + j)
          = (buildQueues files).2.get? j := by
        show (prev ++ (buildQueues files).2).get? (prev.length + j) = _
        rw [List.get?_append_right (by omega)]
        congr 1
        omega
      obtain ⟨entry, hentry⟩ : ∃ entry, (buildQueues files).2.get? j = some entry := by
        cases hx : (buildQueues files).2.get? j with
        | none => exact absurd (List.get?_eq_none.mp hx) (by omega)
        | some e => exact ⟨e, rfl⟩
      have hprog : entry.progress = 0 := buildQueues_snd_progress files j entry hentry
      rw [hget, hentry]
      simp only [Option.map_some', Option.toList_some, List.singleton_append, hprog]
      cases outcome j with
      | success fileId =>
        show List.Chain' ResetLE (0 :: ([Transition.toUploading, Transition.toProcessing]
          ++ [Transition.toCompleted]).map transProgress)
        simp only [List.cons_append, List.nil_append, List.map_cons, List.map_nil, transProgress]
        refine List.Chain'.cons (Or.inl (by omega))
          (List.Chain'.cons (Or.inl (by omega))
            (List.Chain'.cons (Or.inl (by omega)) (List.chain'_singleton _)))
      | failure e =>
        show List.Chain' ResetLE (0 :: ([Transition.toUploading,
          Transition.toError e.toMessage] ++ ([] : List Transition)).map transProgress)
        simp only [List.cons_append, List.nil_append, List.append_nil, List.map_cons,
          List.map_nil, transProgress]
        refine List.Chain'.cons (Or.inl (by omega))
          (List.Chain'.cons (Or.inr rfl) (List.chain'_singleton _))
    · rw [if_neg hrange, if_neg hrange]
      simp only [List.append_nil, List.map_nil]
      cases hq : (handleFiles prev files outcome).queue.get? (prev.length + j) with
      | none => exact List.chain'_nil
      | some it => exact List.chain'_singleton _

lemma taskMainEvents_length (prevLen i : Nat) (file : FileMeta) (oc : UploadOutcome) :
    (taskMainEvents prevLen i file oc).length = 4 := by
  cases oc <;> rfl

lemma uploadLoop_get?_task (prevLen : Nat) (outcome : Nat → UploadOutcome) :
    ∀ (vf : List FileMeta) (k i : Nat) (f : FileMeta), vf.get? k = some f →
      (uploadLoop prevLen outcome i vf).1.get? (4 * k + 1) = some (Event.request f)
      ∧ (uploadLoop prevLen outcome i vf).1.get? (4 * k + 2) =
          some (Event.settled f (outcome (i + k))) := by
  intro vf
  induction vf with
  | nil => intro k i f h; simp at h
  | cons g rest ih =>
    intro k i f h
    cases k with
    | zero =>
      have hgf : g = f := by simpa using h
      subst hgf
      constructor
      · show (taskMainEvents prevLen i g (outcome i)
            ++ (uploadLoop prevLen outcome (i + 1) rest).1).get? (4 * 0 + 1) = _
        cases hoc : outcome i <;> simp [taskMainEvents]
      · show (taskMainEvents prevLen i g (outcome i)
            ++ (uploadLoop prevLen outcome (i + 1) rest).1).get? (4 * 0 + 2) = _
        cases hoc : outcome i <;> simp [taskMainEvents, hoc]
    | succ k =>
      have hk : rest.get? k = some f := by simpa using h
      have h4 : (taskMainEvents prevLen i g (outcome i)).length = 4 :=
        taskMainEvents_length prevLen i g (outcome i)
      have harith : i + (k + 1) = (i + 1) + k := by omega
      constructor
      · show (taskMainEvents prevLen i g (outcome i)
            ++ (uploadLoop prevLen outcome (i + 1) rest).1).get? (4 * (k + 1) + 1) = _
        rw [List.get?_append_right (by omega), h4]
        have hsub : 4 * (k + 1) + 1 - 4 = 4 * k + 1 := by omega
        rw [hsub]
        exact (ih k (i + 1) f hk).1
      · show (taskMainEvents prevLen i g (outcome i)
            ++ (uploadLoop prevLen outcome (i + 1) rest).1).get? (4 * (k + 1) + 2) = _
        rw [List.get?_append_right (by omega), h4]
        have hsub : 4 * (k + 1) + 2 - 4 = 4 * k + 2 := by omega
        rw [hsub, harith]
        exact (ih k (i + 1) f hk).2

/-- C5 amended: uploads are issued serially — for any two consecutive valid
files of a batch, the settlement of the earlier file's transfer occurs in
the trace strictly before the request of the later file is issued (the loop
awaits each `uploadFile` call before starting the next). -/
theorem uploads_serial_amended (prev : List UploadProgress) (files : List FileMeta)
    (outcome : Nat → UploadOutcome) (j : Nat) (fj fj1 : FileMeta)
    (hj : (buildQueues files).1.get? j = some fj)
    (hj1 : (buildQueues files).1.get? (j + 1) = some fj1) :
    precedesIn (handleFiles prev files outcome).trace
      (Event.settled fj (outcome j)) (Event.request fj1) := by
  have hs := (uploadLoop_get?_task prev.length outcome (buildQueues files).1 j 0 fj hj).2
  have hr := (uploadLoop_get?_task prev.length outcome (buildQueues files).1 (j + 1) 0 fj1 hj1).1
  rw [Nat.zero_add] at hs
  have htr : (handleFiles prev files outcome).trace
      = (uploadLoop prev.length outcome 0 (buildQueues files).1).1 := rfl
  rw [← htr] at hs hr
  obtain ⟨hb1, hg1⟩ := List.get?_eq_some.mp hs
  obtain ⟨hb2, hg2⟩ := List.get?_eq_some.mp hr
  refine ⟨⟨4 * j + 2, hb1⟩, ⟨4 * (j + 1) + 1, hb2⟩, ?_, hg1, hg2⟩
  show 4 * j + 2 < 4 * (j + 1) + 1
  omega

/-- Witness for the amended C5: in the two-file batch, the settlement of
`a.csv` precedes the request of `b.csv`. -/
theorem uploads_serial_amended_witness :
    precedesIn serialRun.trace (Event.settled aFile (UploadOutcome.success "x"))
      (Event.request bFile) :=
  uploads_serial_amended [] [aFile, bFile] (fun _ => UploadOutcome.success "x") 0 aFile bFile
    (by decide) (by decide)

end SichelgaitaUpload
